import Mathlib

/-!
Shallow embedding of the Black-Scholes pricing core of `src/app.py`
(`bs_call_price`, `bs_put_price`, `intrinsic_call`, `intrinsic_put`, and the
spot sweep `np.linspace(0, 2*strike, 200)` of `main`), over the reals.

`scipy.stats.norm.cdf` is embedded as the standard normal CDF; the IEEE-754
behaviour `np.log(0.0) = -inf` (reached at spot `S = 0`, where the code divides
`0` by a positive strike) together with `norm.cdf(-inf) = 0`,
`norm.cdf(inf) = 1` is embedded through `EReal`-valued `d1`/`d2`.
-/

open Real MeasureTheory Set

noncomputable section

namespace BS

/-- Standard normal probability density, `exp (-z^2/2) / sqrt (2*pi)`. -/
def normPdf (z : ℝ) : ℝ := Real.exp (-z ^ 2 / 2) / Real.sqrt (2 * Real.pi)

/-- Standard normal cumulative distribution function (`scipy.stats.norm.cdf`). -/
def normCdf (x : ℝ) : ℝ := ∫ z in Iic x, normPdf z

/-- `np.log` on the nonnegative reals extended IEEE-style: `np.log(0.0) = -inf`.
Negative arguments (NaN in NumPy) are outside the modelled domain, which always
has the form `S / K` with `S ≥ 0 < K`. -/
def elog (x : ℝ) : EReal := if x = 0 then ⊥ else ((Real.log x : ℝ) : EReal)

/-- `scipy.stats.norm.cdf` on extended reals: `cdf(-inf) = 0`, `cdf(inf) = 1`. -/
def normCdfE (x : EReal) : ℝ := if x = ⊥ then 0 else if x = ⊤ then 1 else normCdf x.toReal

/-- `d1` of `bs_call_price`/`bs_put_price` in `src/app.py`:
`(np.log(S / K) + (r - q + 0.5 * sigma**2) * T) / (sigma * np.sqrt(T))`. -/
def d1E (S K T r sigma q : ℝ) : EReal :=
  (elog (S / K) + (((r - q + 0.5 * sigma ^ 2) * T : ℝ) : EReal)) /
    ((sigma * Real.sqrt T : ℝ) : EReal)

/-- `d2 = d1 - sigma * np.sqrt(T)` of `src/app.py`. -/
def d2E (S K T r sigma q : ℝ) : EReal :=
  d1E S K T r sigma q - ((sigma * Real.sqrt T : ℝ) : EReal)

/-- `bs_call_price` of `src/app.py`. -/
def bs_call_price (S K T r sigma q : ℝ) : ℝ :=
  if sigma ≤ 0 ∨ T ≤ 0 then max 0 (Real.exp (-q * T) * S - Real.exp (-r * T) * K)
  else
    S * Real.exp (-q * T) * normCdfE (d1E S K T r sigma q) -
      K * Real.exp (-r * T) * normCdfE (d2E S K T r sigma q)

/-- `bs_put_price` of `src/app.py`. -/
def bs_put_price (S K T r sigma q : ℝ) : ℝ :=
  if sigma ≤ 0 ∨ T ≤ 0 then max 0 (Real.exp (-r * T) * K - Real.exp (-q * T) * S)
  else
    K * Real.exp (-r * T) * normCdfE (-d2E S K T r sigma q) -
      S * Real.exp (-q * T) * normCdfE (-d1E S K T r sigma q)

/-- `intrinsic_call` of `src/app.py`: `np.maximum(S - K, 0)`. -/
def intrinsic_call (S K : ℝ) : ℝ := max (S - K) 0

/-- `intrinsic_put` of `src/app.py`: `np.maximum(K - S, 0)`. -/
def intrinsic_put (S K : ℝ) : ℝ := max (K - S) 0

/-- `np.linspace a b n`: `n` evenly spaced points from `a` to `b` inclusive
(`a + i * (b - a) / (n - 1)`; NumPy pins the last sample to exactly `b`, which
in exact real arithmetic coincides with the formula). -/
def linspace (a b : ℝ) (n : ℕ) : List ℝ :=
  (List.range n).map (fun i : ℕ => a + (b - a) * (i : ℝ) / ((n : ℝ) - 1))

/-- `S_vals = np.linspace(S_min, S_max, 200)` with `S_min = 0`,
`S_max = 2 * strike` from `main` of `src/app.py`. -/
def S_vals (strike : ℝ) : List ℝ := linspace 0 (2 * strike) 200

/-- `call_vals` list comprehension of `main`. -/
def call_vals (strike T r sigma q : ℝ) : List ℝ :=
  (S_vals strike).map (fun S => bs_call_price S strike T r sigma q)

/-- `put_vals` list comprehension of `main`. -/
def put_vals (strike T r sigma q : ℝ) : List ℝ :=
  (S_vals strike).map (fun S => bs_put_price S strike T r sigma q)

/-- `intrinsic_call_vals = intrinsic_call(S_vals, strike)` of `main`
(NumPy broadcasts element-wise). -/
def intrinsic_call_vals (strike : ℝ) : List ℝ :=
  (S_vals strike).map (fun S => intrinsic_call S strike)

/-- `intrinsic_put_vals = intrinsic_put(S_vals, strike)` of `main`. -/
def intrinsic_put_vals (strike : ℝ) : List ℝ :=
  (S_vals strike).map (fun S => intrinsic_put S strike)

/-! ### Basic facts about the normal density and CDF -/

lemma normPdf_pos (z : ℝ) : 0 < normPdf z := by
  apply div_pos (Real.exp_pos _)
  exact Real.sqrt_pos.2 (by positivity)

lemma normPdf_nonneg (z : ℝ) : 0 ≤ normPdf z := (normPdf_pos z).le

lemma normPdf_neg (z : ℝ) : normPdf (-z) = normPdf z := by
  unfold normPdf; rw [neg_pow, Even.neg_one_pow ⟨1, rfl⟩, one_mul]

lemma gauss_eq : (fun z : ℝ => Real.exp (-z ^ 2 / 2)) =
    fun z : ℝ => Real.exp (-(1 / 2 : ℝ) * z ^ 2) := by
  funext z; ring_nf

lemma integrable_normPdf : Integrable normPdf := by
  have h : Integrable fun z : ℝ => Real.exp (-(1 / 2 : ℝ) * z ^ 2) :=
    integrable_exp_neg_mul_sq (by norm_num)
  have h2 : Integrable fun z : ℝ => Real.exp (-z ^ 2 / 2) := by rw [gauss_eq]; exact h
  exact h2.div_const _

lemma integral_normPdf : ∫ z, normPdf z = 1 := by
  unfold normPdf
  rw [integral_div, gauss_eq, integral_gaussian]
  rw [show Real.pi / (1 / 2) = 2 * Real.pi by ring_nf]
  exact div_self (by positivity)

lemma normCdf_nonneg (x : ℝ) : 0 ≤ normCdf x :=
  setIntegral_nonneg measurableSet_Iic fun z _ => normPdf_nonneg z

lemma normCdf_eq_integral_Ioi (x : ℝ) : normCdf x = ∫ z in Ioi (-x), normPdf z := by
  have h := integral_comp_neg_Iic x normPdf
  simp only [normPdf_neg] at h
  exact h.symm ▸ rfl

lemma normCdf_add_neg (x : ℝ) : normCdf x + normCdf (-x) = 1 := by
  have h2 : normCdf (-x) = ∫ z in Ioi x, normPdf z := by
    rw [normCdf_eq_integral_Ioi, neg_neg]
  rw [normCdf, h2,
    intervalIntegral.integral_Iic_add_Ioi integrable_normPdf.integrableOn integrable_normPdf.integrableOn,
    integral_normPdf]

lemma normCdf_neg_eq (x : ℝ) : normCdf (-x) = 1 - normCdf x := by
  have := normCdf_add_neg x; linarith

lemma normCdf_le_one (x : ℝ) : normCdf x ≤ 1 := by
  have := normCdf_add_neg x
  have := normCdf_nonneg (-x)
  linarith

lemma normCdf_mono : Monotone normCdf := by
  intro a b hab
  exact setIntegral_mono_set integrable_normPdf.integrableOn
    (Filter.Eventually.of_forall fun z => normPdf_nonneg z)
    (HasSubset.Subset.eventuallyLE (Iic_subset_Iic.2 hab))

lemma integral_Ioi_normPdf (u : ℝ) : ∫ z in Ioi u, normPdf z = 1 - normCdf u := by
  have h := intervalIntegral.integral_Iic_add_Ioi (b := u)
    (integrable_normPdf.integrableOn) (integrable_normPdf.integrableOn)
  rw [integral_normPdf] at h
  have : (∫ z in Iic u, normPdf z) = normCdf u := rfl
  linarith [h, this]

lemma integral_Ici_normPdf (u : ℝ) : ∫ z in Ici u, normPdf z = 1 - normCdf u := by
  rw [integral_Ici_eq_integral_Ioi, integral_Ioi_normPdf]

/-- Translation invariance of Lebesgue integrals over right-infinite rays. -/
lemma setIntegral_Ici_shift (f : ℝ → ℝ) (c a : ℝ) :
    ∫ z in Ici c, f (z - a) = ∫ z in Ici (c - a), f z := by
  have A : MeasurableEmbedding fun z : ℝ => z + -a :=
    (Homeomorph.addRight (-a)).isClosedEmbedding.measurableEmbedding
  have h := A.setIntegral_map (μ := volume) f (Ici (c - a))
  rw [MeasureTheory.map_add_right_eq_self volume (-a)] at h
  have hpre : Set.preimage (fun z : ℝ => z + -a) (Ici (c - a)) = Ici c := by
    ext x
    simp only [mem_preimage, mem_Ici]
    constructor <;> intro hx <;> linarith
  rw [hpre] at h
  simp only [← sub_eq_add_neg] at h
  exact h.symm

/-- The exponential tilt identity: `exp (a*z - a^2/2) * normPdf z = normPdf (z - a)`. -/
lemma expTilt (a z : ℝ) : Real.exp (a * z - a ^ 2 / 2) * normPdf z = normPdf (z - a) := by
  unfold normPdf
  have h : Real.exp (a * z - a ^ 2 / 2) * Real.exp (-z ^ 2 / 2) = Real.exp (-(z - a) ^ 2 / 2) := by
    rw [← Real.exp_add]
    congr 1
    ring
  rw [mul_div_assoc', h]

lemma integrable_normPdf_shift (a : ℝ) : Integrable fun z : ℝ => normPdf (z - a) :=
  integrable_normPdf.comp_sub_right a

lemma integral_normPdf_shift (a : ℝ) : ∫ z, normPdf (z - a) = 1 := by
  rw [integral_sub_right_eq_self normPdf a, integral_normPdf]

lemma integrable_tilt (a : ℝ) :
    Integrable fun z : ℝ => Real.exp (a * z - a ^ 2 / 2) * normPdf z := by
  simp only [expTilt]
  exact integrable_normPdf_shift a

lemma integral_tilt (a : ℝ) : ∫ z, Real.exp (a * z - a ^ 2 / 2) * normPdf z = 1 := by
  simp only [expTilt]
  exact integral_normPdf_shift a

lemma setIntegral_Ici_normPdf_shift (c a : ℝ) :
    ∫ z in Ici c, normPdf (z - a) = normCdf (a - c) := by
  rw [setIntegral_Ici_shift normPdf c a, integral_Ici_normPdf, ← normCdf_neg_eq, neg_sub]

lemma continuous_normPdf : Continuous normPdf := by
  unfold normPdf
  fun_prop

lemma lin_split (A B a : ℝ) : ∀ z : ℝ,
    (A * Real.exp (a * z - a ^ 2 / 2) - B) * normPdf z
      = A * (Real.exp (a * z - a ^ 2 / 2) * normPdf z) - B * normPdf z := fun z => by ring

lemma integrable_lin (A B a : ℝ) :
    Integrable fun z : ℝ => (A * Real.exp (a * z - a ^ 2 / 2) - B) * normPdf z := by
  simp only [lin_split, expTilt]
  exact ((integrable_normPdf_shift a).const_mul A).sub (integrable_normPdf.const_mul B)

lemma integral_lin (A B a : ℝ) :
    ∫ z, (A * Real.exp (a * z - a ^ 2 / 2) - B) * normPdf z = A - B := by
  simp only [lin_split, expTilt]
  rw [integral_sub ((integrable_normPdf_shift a).const_mul A) (integrable_normPdf.const_mul B),
    integral_mul_left, integral_mul_left, integral_normPdf_shift, integral_normPdf, mul_one, mul_one]

lemma continuous_maxlin (A B a : ℝ) :
    Continuous fun z : ℝ => max (A * Real.exp (a * z - a ^ 2 / 2) - B) 0 * normPdf z := by
  apply Continuous.mul _ continuous_normPdf
  apply Continuous.max _ continuous_const
  fun_prop

lemma integrable_maxlin (A B a : ℝ) (hA : 0 ≤ A) :
    Integrable fun z : ℝ => max (A * Real.exp (a * z - a ^ 2 / 2) - B) 0 * normPdf z := by
  apply Integrable.mono' (g := fun z => A * normPdf (z - a) + |B| * normPdf z)
  · exact ((integrable_normPdf_shift a).const_mul A).add (integrable_normPdf.const_mul |B|)
  · exact (continuous_maxlin A B a).aestronglyMeasurable
  · refine Filter.Eventually.of_forall fun z => ?_
    have h1 : 0 ≤ max (A * Real.exp (a * z - a ^ 2 / 2) - B) 0 * normPdf z :=
      mul_nonneg (le_max_right _ _) (normPdf_nonneg z)
    rw [Real.norm_eq_abs, abs_of_nonneg h1]
    have h2 : max (A * Real.exp (a * z - a ^ 2 / 2) - B) 0
        ≤ A * Real.exp (a * z - a ^ 2 / 2) + |B| := by
      apply max_le
      · linarith [neg_abs_le B]
      · exact add_nonneg (mul_nonneg hA (Real.exp_pos _).le) (abs_nonneg B)
    calc max (A * Real.exp (a * z - a ^ 2 / 2) - B) 0 * normPdf z
        ≤ (A * Real.exp (a * z - a ^ 2 / 2) + |B|) * normPdf z :=
          mul_le_mul_of_nonneg_right h2 (normPdf_nonneg z)
      _ = A * (Real.exp (a * z - a ^ 2 / 2) * normPdf z) + |B| * normPdf z := by ring
      _ = A * normPdf (z - a) + |B| * normPdf z := by rw [expTilt]

/-- The payoff `max (A * e^(a z - a^2/2) - B) 0` is nonzero exactly on the ray
`z ≥ log (B/A) / a + a/2`. -/
lemma maxlin_eq_indicator (A B a : ℝ) (hA : 0 < A) (hB : 0 < B) (ha : 0 < a) :
    (fun z : ℝ => max (A * Real.exp (a * z - a ^ 2 / 2) - B) 0 * normPdf z)
      = indicator (Ici (Real.log (B / A) / a + a / 2))
          (fun z => (A * Real.exp (a * z - a ^ 2 / 2) - B) * normPdf z) := by
  funext z
  have hane : a ≠ 0 := ha.ne'
  have hiff : 0 ≤ A * Real.exp (a * z - a ^ 2 / 2) - B
      ↔ Real.log (B / A) / a + a / 2 ≤ z := by
    rw [sub_nonneg, ← div_le_iff₀' hA, ← Real.log_le_iff_le_exp (div_pos hB hA),
      show (Real.log (B / A) ≤ a * z - a ^ 2 / 2
          ↔ Real.log (B / A) + a ^ 2 / 2 ≤ a * z) from by constructor <;> intro <;> linarith,
      ← div_le_iff₀' ha, add_div,
      show a ^ 2 / 2 / a = a / 2 from by field_simp; ring]
  by_cases h : z ∈ Ici (Real.log (B / A) / a + a / 2)
  · rw [indicator_of_mem h, max_eq_left (hiff.2 (mem_Ici.1 h))]
  · rw [indicator_of_not_mem h]
    have hz : ¬ Real.log (B / A) / a + a / 2 ≤ z := fun hc => h (mem_Ici.2 hc)
    have hle : A * Real.exp (a * z - a ^ 2 / 2) - B ≤ 0 := by
      by_contra hpos
      push_neg at hpos
      exact hz (hiff.1 hpos.le)
    rw [max_eq_right hle, zero_mul]

/-- Integral representation of the Black-Scholes kernel: for `A, B, a > 0`,
`A * Φ(log(A/B)/a + a/2) - B * Φ(log(A/B)/a - a/2)` is the Gaussian integral of
the nonnegative payoff `max (A * e^(a z - a^2/2) - B) 0`. -/
lemma callRepr (A B a : ℝ) (hA : 0 < A) (hB : 0 < B) (ha : 0 < a) :
    ∫ z, max (A * Real.exp (a * z - a ^ 2 / 2) - B) 0 * normPdf z
      = A * normCdf (Real.log (A / B) / a + a / 2)
        - B * normCdf (Real.log (A / B) / a - a / 2) := by
  rw [maxlin_eq_indicator A B a hA hB ha, integral_indicator measurableSet_Ici]
  simp only [lin_split, expTilt]
  rw [integral_sub ((integrable_normPdf_shift a).const_mul A).integrableOn
    (integrable_normPdf.const_mul B).integrableOn]
  rw [integral_mul_left, integral_mul_left]
  rw [setIntegral_Ici_normPdf_shift (Real.log (B / A) / a + a / 2) a, integral_Ici_normPdf]
  have hlogBA : Real.log (B / A) = -Real.log (A / B) := by
    rw [← Real.log_inv, inv_div]
  have h1 : a - (Real.log (B / A) / a + a / 2) = Real.log (A / B) / a + a / 2 := by
    rw [hlogBA]; ring
  have h2 : 1 - normCdf (Real.log (B / A) / a + a / 2)
      = normCdf (Real.log (A / B) / a - a / 2) := by
    rw [← normCdf_neg_eq]
    congr 1
    rw [hlogBA]; ring
  rw [h1, h2]

/-! ### Evaluating the `EReal`-valued `d1`, `d2` -/

lemma normCdfE_coe (x : ℝ) : normCdfE ((x : ℝ) : EReal) = normCdf x := by
  rw [normCdfE, if_neg (EReal.coe_ne_bot x), if_neg (EReal.coe_ne_top x), EReal.toReal_coe]

lemma normCdfE_bot : normCdfE ⊥ = 0 := rfl

lemma normCdfE_top : normCdfE ⊤ = 1 := by
  rw [normCdfE, if_neg (Ne.symm (bot_ne_top)), if_pos rfl]

lemma elog_pos {x : ℝ} (hx : 0 < x) : elog x = ((Real.log x : ℝ) : EReal) := by
  rw [elog, if_neg hx.ne']

lemma elog_zero : elog 0 = ⊥ := by rw [elog, if_pos rfl]

/-- For positive spot the `EReal` arithmetic of `d1` collapses to the real formula. -/
lemma d1E_coe (S K T r sigma q : ℝ) (hS : 0 < S) (hK : 0 < K) :
    d1E S K T r sigma q =
      (((Real.log (S / K) + (r - q + 0.5 * sigma ^ 2) * T) / (sigma * Real.sqrt T) : ℝ) : EReal) := by
  rw [d1E, elog_pos (div_pos hS hK), ← EReal.coe_add, ← EReal.coe_div]

lemma d2E_coe (S K T r sigma q : ℝ) (hS : 0 < S) (hK : 0 < K) :
    d2E S K T r sigma q =
      (((Real.log (S / K) + (r - q + 0.5 * sigma ^ 2) * T) / (sigma * Real.sqrt T)
          - sigma * Real.sqrt T : ℝ) : EReal) := by
  rw [d2E, d1E_coe S K T r sigma q hS hK, ← EReal.coe_sub]

/-- At `S = 0` the code computes `log(0/K) = -inf`, and `d1 = -inf`. -/
lemma d1E_zero (K T r sigma q : ℝ) (ha : 0 < sigma * Real.sqrt T) :
    d1E 0 K T r sigma q = ⊥ := by
  rw [d1E, zero_div, elog_zero, EReal.bot_add]
  exact EReal.bot_div_of_pos_ne_top (EReal.coe_pos.2 ha) (EReal.coe_ne_top _)

lemma d2E_zero (K T r sigma q : ℝ) (ha : 0 < sigma * Real.sqrt T) :
    d2E 0 K T r sigma q = ⊥ := by
  rw [d2E, d1E_zero K T r sigma q ha, EReal.bot_sub]

/-! ### The pricing functions on each branch -/

lemma not_deg {sigma T : ℝ} (hsig : 0 < sigma) (hT : 0 < T) : ¬(sigma ≤ 0 ∨ T ≤ 0) := by
  push_neg
  exact ⟨hsig, hT⟩

/-- `bs_call_price` at `S = 0` in the non-degenerate branch: the IEEE path
`log 0 = -inf`, `Φ(-inf) = 0` yields a zero call price. -/
lemma call_price_zero (K T r sigma q : ℝ) (hsig : 0 < sigma) (hT : 0 < T) :
    bs_call_price 0 K T r sigma q = 0 := by
  have ha : 0 < sigma * Real.sqrt T := mul_pos hsig (Real.sqrt_pos.2 hT)
  rw [bs_call_price, if_neg (not_deg hsig hT), d1E_zero K T r sigma q ha,
    d2E_zero K T r sigma q ha, normCdfE_bot]
  ring

/-- `bs_put_price` at `S = 0`: `Φ(-d2) = Φ(inf) = 1` yields the discounted strike. -/
lemma put_price_zero (K T r sigma q : ℝ) (hsig : 0 < sigma) (hT : 0 < T) :
    bs_put_price 0 K T r sigma q = K * Real.exp (-r * T) := by
  have ha : 0 < sigma * Real.sqrt T := mul_pos hsig (Real.sqrt_pos.2 hT)
  rw [bs_put_price, if_neg (not_deg hsig hT), d1E_zero K T r sigma q ha,
    d2E_zero K T r sigma q ha, EReal.neg_bot, normCdfE_top]
  ring

/-- For `S > 0` the call price is the classical real-valued formula. -/
lemma call_price_pos (S K T r sigma q : ℝ) (hS : 0 < S) (hK : 0 < K)
    (hsig : 0 < sigma) (hT : 0 < T) :
    bs_call_price S K T r sigma q
      = S * Real.exp (-q * T) *
          normCdf ((Real.log (S / K) + (r - q + 0.5 * sigma ^ 2) * T) / (sigma * Real.sqrt T))
        - K * Real.exp (-r * T) *
          normCdf ((Real.log (S / K) + (r - q + 0.5 * sigma ^ 2) * T) / (sigma * Real.sqrt T)
            - sigma * Real.sqrt T) := by
  rw [bs_call_price, if_neg (not_deg hsig hT), d1E_coe S K T r sigma q hS hK,
    d2E_coe S K T r sigma q hS hK, normCdfE_coe, normCdfE_coe]

/-- For `S > 0` the put price is the classical real-valued formula. -/
lemma put_price_pos (S K T r sigma q : ℝ) (hS : 0 < S) (hK : 0 < K)
    (hsig : 0 < sigma) (hT : 0 < T) :
    bs_put_price S K T r sigma q
      = K * Real.exp (-r * T) *
          normCdf (-((Real.log (S / K) + (r - q + 0.5 * sigma ^ 2) * T) / (sigma * Real.sqrt T)
            - sigma * Real.sqrt T))
        - S * Real.exp (-q * T) *
          normCdf (-((Real.log (S / K) + (r - q + 0.5 * sigma ^ 2) * T) / (sigma * Real.sqrt T))) := by
  rw [bs_put_price, if_neg (not_deg hsig hT), d1E_coe S K T r sigma q hS hK,
    d2E_coe S K T r sigma q hS hK, ← EReal.coe_neg, ← EReal.coe_neg, normCdfE_coe, normCdfE_coe]

lemma log_div_swap (x y : ℝ) : Real.log (x / y) = -Real.log (y / x) := by
  rw [← Real.log_inv, inv_div]

/-- The code's `d1` in forward/volatility coordinates:
`d1 = log(A/B)/a + a/2` with `A = S e^(-qT)`, `B = K e^(-rT)`, `a = σ √T`. -/
lemma d1_eq_log_div (S K T r sigma q : ℝ) (hS : 0 < S) (hK : 0 < K)
    (hsig : 0 < sigma) (hT : 0 < T) :
    (Real.log (S / K) + (r - q + 0.5 * sigma ^ 2) * T) / (sigma * Real.sqrt T)
      = Real.log (S * Real.exp (-q * T) / (K * Real.exp (-r * T))) / (sigma * Real.sqrt T)
        + sigma * Real.sqrt T / 2 := by
  have hsq : Real.sqrt T ^ 2 = T := Real.sq_sqrt hT.le
  have ha : sigma * Real.sqrt T ≠ 0 := (mul_pos hsig (Real.sqrt_pos.2 hT)).ne'
  have hlog : Real.log (S * Real.exp (-q * T) / (K * Real.exp (-r * T)))
      = Real.log (S / K) + (r - q) * T := by
    rw [Real.log_div (by positivity) (by positivity),
      Real.log_mul hS.ne' (Real.exp_ne_zero _), Real.log_mul hK.ne' (Real.exp_ne_zero _),
      Real.log_exp, Real.log_exp, Real.log_div hS.ne' hK.ne']
    ring
  have key : (r - q + 0.5 * sigma ^ 2) * T = (r - q) * T + (sigma * Real.sqrt T) ^ 2 / 2 := by
    rw [mul_pow, hsq]
    ring
  rw [hlog, key, ← add_assoc, add_div,
    show (sigma * Real.sqrt T) ^ 2 / 2 / (sigma * Real.sqrt T) = sigma * Real.sqrt T / 2 from by
      field_simp
      ring]

/-- The call price for `S > 0` as a Gaussian integral of the discounted payoff. -/
lemma call_eq_integral (S K T r sigma q : ℝ) (hS : 0 < S) (hK : 0 < K)
    (hsig : 0 < sigma) (hT : 0 < T) :
    bs_call_price S K T r sigma q
      = ∫ z, max (S * Real.exp (-q * T) *
            Real.exp (sigma * Real.sqrt T * z - (sigma * Real.sqrt T) ^ 2 / 2)
            - K * Real.exp (-r * T)) 0 * normPdf z := by
  have hA : 0 < S * Real.exp (-q * T) := by positivity
  have hB : 0 < K * Real.exp (-r * T) := by positivity
  have ha : 0 < sigma * Real.sqrt T := mul_pos hsig (Real.sqrt_pos.2 hT)
  rw [callRepr _ _ _ hA hB ha, call_price_pos S K T r sigma q hS hK hsig hT,
    d1_eq_log_div S K T r sigma q hS hK hsig hT]
  congr 2
  ring_nf

/-- The put price for `S > 0` as a Gaussian integral of the discounted payoff. -/
lemma put_eq_integral (S K T r sigma q : ℝ) (hS : 0 < S) (hK : 0 < K)
    (hsig : 0 < sigma) (hT : 0 < T) :
    bs_put_price S K T r sigma q
      = ∫ z, max (K * Real.exp (-r * T) *
            Real.exp (sigma * Real.sqrt T * z - (sigma * Real.sqrt T) ^ 2 / 2)
            - S * Real.exp (-q * T)) 0 * normPdf z := by
  have hA : 0 < S * Real.exp (-q * T) := by positivity
  have hB : 0 < K * Real.exp (-r * T) := by positivity
  have ha : 0 < sigma * Real.sqrt T := mul_pos hsig (Real.sqrt_pos.2 hT)
  rw [callRepr _ _ _ hB hA ha, put_price_pos S K T r sigma q hS hK hsig hT,
    d1_eq_log_div S K T r sigma q hS hK hsig hT,
    log_div_swap (K * Real.exp (-r * T)) (S * Real.exp (-q * T))]
  congr 2
  · ring_nf
  · ring_nf

/-- Put-call parity on the non-degenerate branch at positive spot. -/
lemma parity_pos (S K T r sigma q : ℝ) (hS : 0 < S) (hK : 0 < K)
    (hsig : 0 < sigma) (hT : 0 < T) :
    bs_call_price S K T r sigma q - bs_put_price S K T r sigma q
      = S * Real.exp (-q * T) - K * Real.exp (-r * T) := by
  rw [call_price_pos S K T r sigma q hS hK hsig hT, put_price_pos S K T r sigma q hS hK hsig hT]
  have h1 := normCdf_add_neg
    ((Real.log (S / K) + (r - q + 0.5 * sigma ^ 2) * T) / (sigma * Real.sqrt T))
  have h2 := normCdf_add_neg
    ((Real.log (S / K) + (r - q + 0.5 * sigma ^ 2) * T) / (sigma * Real.sqrt T)
      - sigma * Real.sqrt T)
  linear_combination (S * Real.exp (-q * T)) * h1 - (K * Real.exp (-r * T)) * h2

/-- Put-call parity on the non-degenerate branch, spot `S ≥ 0`. -/
lemma parity_main (S K T r sigma q : ℝ) (hS : 0 ≤ S) (hK : 0 < K)
    (hsig : 0 < sigma) (hT : 0 < T) :
    bs_call_price S K T r sigma q - bs_put_price S K T r sigma q
      = S * Real.exp (-q * T) - K * Real.exp (-r * T) := by
  rcases eq_or_lt_of_le hS with h0 | h0
  · rw [← h0, call_price_zero K T r sigma q hsig hT, put_price_zero K T r sigma q hsig hT]
    ring
  · exact parity_pos S K T r sigma q h0 hK hsig hT

/-! ### Nonnegativity, upper bounds, monotonicity -/

lemma call_nonneg (S K T r sigma q : ℝ) (hS : 0 ≤ S) (hK : 0 < K) :
    0 ≤ bs_call_price S K T r sigma q := by
  by_cases h : sigma ≤ 0 ∨ T ≤ 0
  · rw [bs_call_price, if_pos h]
    exact le_max_left 0 _
  · push_neg at h
    rcases eq_or_lt_of_le hS with h0 | h0
    · rw [← h0, call_price_zero K T r sigma q h.1 h.2]
    · rw [call_eq_integral S K T r sigma q h0 hK h.1 h.2]
      exact integral_nonneg fun z => mul_nonneg (le_max_right _ _) (normPdf_nonneg z)

lemma put_nonneg (S K T r sigma q : ℝ) (hS : 0 ≤ S) (hK : 0 < K) :
    0 ≤ bs_put_price S K T r sigma q := by
  by_cases h : sigma ≤ 0 ∨ T ≤ 0
  · rw [bs_put_price, if_pos h]
    exact le_max_left 0 _
  · push_neg at h
    rcases eq_or_lt_of_le hS with h0 | h0
    · rw [← h0, put_price_zero K T r sigma q h.1 h.2]
      positivity
    · rw [put_eq_integral S K T r sigma q h0 hK h.1 h.2]
      exact integral_nonneg fun z => mul_nonneg (le_max_right _ _) (normPdf_nonneg z)

lemma call_le (S K T r sigma q : ℝ) (hS : 0 ≤ S) (hK : 0 < K) :
    bs_call_price S K T r sigma q ≤ S * Real.exp (-q * T) := by
  by_cases h : sigma ≤ 0 ∨ T ≤ 0
  · rw [bs_call_price, if_pos h]
    apply max_le
    · positivity
    · have : 0 ≤ Real.exp (-r * T) * K := by positivity
      linarith [mul_comm (Real.exp (-q * T)) S]
  · push_neg at h
    rcases eq_or_lt_of_le hS with h0 | h0
    · rw [← h0, call_price_zero K T r sigma q h.1 h.2]
      norm_num
    · rw [call_price_pos S K T r sigma q h0 hK h.1 h.2]
      have hA : 0 ≤ S * Real.exp (-q * T) := by positivity
      have hB : 0 ≤ K * Real.exp (-r * T) := by positivity
      have h1 := normCdf_le_one
        ((Real.log (S / K) + (r - q + 0.5 * sigma ^ 2) * T) / (sigma * Real.sqrt T))
      have h2 := normCdf_nonneg
        ((Real.log (S / K) + (r - q + 0.5 * sigma ^ 2) * T) / (sigma * Real.sqrt T)
          - sigma * Real.sqrt T)
      nlinarith

lemma put_le (S K T r sigma q : ℝ) (hS : 0 ≤ S) (hK : 0 < K) :
    bs_put_price S K T r sigma q ≤ K * Real.exp (-r * T) := by
  by_cases h : sigma ≤ 0 ∨ T ≤ 0
  · rw [bs_put_price, if_pos h]
    apply max_le
    · positivity
    · have : 0 ≤ Real.exp (-q * T) * S := by positivity
      linarith [mul_comm (Real.exp (-r * T)) K]
  · push_neg at h
    rcases eq_or_lt_of_le hS with h0 | h0
    · rw [← h0, put_price_zero K T r sigma q h.1 h.2]
    · rw [put_price_pos S K T r sigma q h0 hK h.1 h.2]
      have hA : 0 ≤ S * Real.exp (-q * T) := by positivity
      have hB : 0 ≤ K * Real.exp (-r * T) := by positivity
      have h1 := normCdf_le_one
        (-((Real.log (S / K) + (r - q + 0.5 * sigma ^ 2) * T) / (sigma * Real.sqrt T)
          - sigma * Real.sqrt T))
      have h2 := normCdf_nonneg
        (-((Real.log (S / K) + (r - q + 0.5 * sigma ^ 2) * T) / (sigma * Real.sqrt T)))
      nlinarith

lemma call_mono (S1 S2 K T r sigma q : ℝ) (hS1 : 0 ≤ S1) (hS12 : S1 ≤ S2) (hK : 0 < K) :
    bs_call_price S1 K T r sigma q ≤ bs_call_price S2 K T r sigma q := by
  by_cases h : sigma ≤ 0 ∨ T ≤ 0
  · rw [bs_call_price, if_pos h, bs_call_price, if_pos h]
    apply max_le_max le_rfl
    have := mul_le_mul_of_nonneg_left hS12 (Real.exp_pos (-q * T)).le
    linarith
  · push_neg at h
    rcases eq_or_lt_of_le hS1 with h0 | h0
    · rw [← h0, call_price_zero K T r sigma q h.1 h.2]
      exact call_nonneg S2 K T r sigma q (h0 ▸ hS12) hK
    · have hS2 : 0 < S2 := lt_of_lt_of_le h0 hS12
      rw [call_eq_integral S1 K T r sigma q h0 hK h.1 h.2,
        call_eq_integral S2 K T r sigma q hS2 hK h.1 h.2]
      apply integral_mono
        (integrable_maxlin _ _ _ (by positivity)) (integrable_maxlin _ _ _ (by positivity))
      intro z
      apply mul_le_mul_of_nonneg_right _ (normPdf_nonneg z)
      apply max_le_max _ le_rfl
      have h1 : S1 * Real.exp (-q * T) ≤ S2 * Real.exp (-q * T) :=
        mul_le_mul_of_nonneg_right hS12 (Real.exp_pos _).le
      have h2 := mul_le_mul_of_nonneg_right h1
        (Real.exp_pos (sigma * Real.sqrt T * z - (sigma * Real.sqrt T) ^ 2 / 2)).le
      linarith

lemma put_anti (S1 S2 K T r sigma q : ℝ) (hS1 : 0 ≤ S1) (hS12 : S1 ≤ S2) (hK : 0 < K) :
    bs_put_price S2 K T r sigma q ≤ bs_put_price S1 K T r sigma q := by
  by_cases h : sigma ≤ 0 ∨ T ≤ 0
  · rw [bs_put_price, if_pos h, bs_put_price, if_pos h]
    apply max_le_max le_rfl
    have := mul_le_mul_of_nonneg_left hS12 (Real.exp_pos (-q * T)).le
    linarith
  · push_neg at h
    rcases eq_or_lt_of_le hS1 with h0 | h0
    · rw [← h0, put_price_zero K T r sigma q h.1 h.2]
      exact put_le S2 K T r sigma q (le_trans (h0 ▸ hS1) hS12) hK
    · have hS2 : 0 < S2 := lt_of_lt_of_le h0 hS12
      rw [put_eq_integral S1 K T r sigma q h0 hK h.1 h.2,
        put_eq_integral S2 K T r sigma q hS2 hK h.1 h.2]
      apply integral_mono
        (integrable_maxlin _ _ _ (by positivity)) (integrable_maxlin _ _ _ (by positivity))
      intro z
      apply mul_le_mul_of_nonneg_right _ (normPdf_nonneg z)
      apply max_le_max _ le_rfl
      have h1 : S1 * Real.exp (-q * T) ≤ S2 * Real.exp (-q * T) :=
        mul_le_mul_of_nonneg_right hS12 (Real.exp_pos _).le
      linarith

/-! ### The spot sweep -/

lemma linspace_getD (a b : ℝ) (n i : ℕ) (hi : i < n) :
    (linspace a b n).getD i 0 = a + (b - a) * i / ((n : ℝ) - 1) := by
  rw [linspace, List.getD_eq_getElem?_getD, List.getElem?_map, List.getElem?_range hi]
  rfl

lemma map_getD (f : ℝ → ℝ) (l : List ℝ) (i : ℕ) (hi : i < l.length) :
    (l.map f).getD i 0 = f (l.getD i 0) := by
  rw [List.getD_eq_getElem?_getD, List.getElem?_map, List.getElem?_eq_getElem hi,
    List.getD_eq_getElem?_getD, List.getElem?_eq_getElem hi]
  rfl

lemma S_vals_length (K : ℝ) : (S_vals K).length = 200 := by
  rw [S_vals, linspace, List.length_map, List.length_range]

lemma S_vals_getD (K : ℝ) (i : ℕ) (hi : i < 200) :
    (S_vals K).getD i 0 = 2 * K * i / 199 := by
  rw [S_vals, linspace_getD 0 (2 * K) 200 i hi]
  norm_num

lemma S_vals_spacing (K : ℝ) (i : ℕ) (hi : i + 1 < 200) :
    (S_vals K).getD (i + 1) 0 - (S_vals K).getD i 0 = 2 * K / 199 := by
  rw [S_vals_getD K (i + 1) hi, S_vals_getD K i (by omega)]
  push_cast
  ring

lemma S_vals_strict (K : ℝ) (hK : 0 < K) (i j : ℕ) (hij : i < j) (hj : j < 200) :
    (S_vals K).getD i 0 < (S_vals K).getD j 0 := by
  rw [S_vals_getD K i (lt_trans hij hj), S_vals_getD K j hj]
  have hcast : (i : ℝ) < j := by exact_mod_cast hij
  have hnum : 2 * K * i < 2 * K * j := by nlinarith
  have h199 : (0 : ℝ) < 199 := by norm_num
  exact div_lt_div_of_pos_right hnum h199

/-! ### The claims -/

/-- C1: Put-call parity: for every input with `K > 0`, `S ≥ 0`, `sigma > 0` and
`T > 0`, `bs_call_price - bs_put_price = S*e^(-q*T) - K*e^(-r*T)` exactly over
the reals. -/
theorem put_call_parity (S K T r sigma q : ℝ) (hK : 0 < K) (hS : 0 ≤ S)
    (hsig : 0 < sigma) (hT : 0 < T) :
    bs_call_price S K T r sigma q - bs_put_price S K T r sigma q
      = S * Real.exp (-q * T) - K * Real.exp (-r * T) :=
  parity_main S K T r sigma q hS hK hsig hT

theorem put_call_parity_witness :
    (0 : ℝ) < 1 ∧ (0 : ℝ) ≤ 1 ∧
      bs_call_price 1 1 1 0 1 0 - bs_put_price 1 1 1 0 1 0
        = 1 * Real.exp (-0 * 1) - 1 * Real.exp (-0 * 1) :=
  ⟨by norm_num, by norm_num,
    put_call_parity 1 1 1 0 1 0 (by norm_num) (by norm_num) (by norm_num) (by norm_num)⟩

/-- C2: Degenerate case: whenever `sigma ≤ 0` or `T ≤ 0`, the call returns
`max(0, S*e^(-q*T) - K*e^(-r*T))` and the put `max(0, K*e^(-r*T) - S*e^(-q*T))`
- the discounted (forward) intrinsic values. -/
theorem degenerate_prices (S K T r sigma q : ℝ) (h : sigma ≤ 0 ∨ T ≤ 0) :
    bs_call_price S K T r sigma q = max 0 (S * Real.exp (-q * T) - K * Real.exp (-r * T)) ∧
    bs_put_price S K T r sigma q = max 0 (K * Real.exp (-r * T) - S * Real.exp (-q * T)) := by
  constructor
  · rw [bs_call_price, if_pos h]
    congr 1
    ring
  · rw [bs_put_price, if_pos h]
    congr 1
    ring

theorem degenerate_prices_witness :
    ((0 : ℝ) ≤ 0 ∨ (1 : ℝ) ≤ 0) ∧
      (bs_call_price 2 1 1 0 0 0 = max 0 (2 * Real.exp (-0 * 1) - 1 * Real.exp (-0 * 1)) ∧
        bs_put_price 2 1 1 0 0 0 = max 0 (1 * Real.exp (-0 * 1) - 2 * Real.exp (-0 * 1))) :=
  ⟨Or.inl le_rfl, degenerate_prices 2 1 1 0 0 0 (Or.inl le_rfl)⟩

/-- C3: Boundary at `S = 0`: for `K > 0`, `T > 0`, `sigma > 0` and any `r`, `q`,
`bs_call_price 0 K T r sigma q = 0` and `bs_put_price 0 K T r sigma q = K*e^(-r*T)`
(reached through `log(0/K) = -inf`, so `d1 = d2 = -inf`, `Φ(-inf) = 0`, `Φ(inf) = 1`). -/
theorem boundary_at_zero_spot (K T r sigma q : ℝ) (hK : 0 < K) (hT : 0 < T)
    (hsig : 0 < sigma) :
    bs_call_price 0 K T r sigma q = 0 ∧
    bs_put_price 0 K T r sigma q = K * Real.exp (-r * T) :=
  ⟨call_price_zero K T r sigma q hsig hT, put_price_zero K T r sigma q hsig hT⟩

theorem boundary_at_zero_spot_witness :
    (0 : ℝ) < 1 ∧
      (bs_call_price 0 1 1 0 1 0 = 0 ∧ bs_put_price 0 1 1 0 1 0 = 1 * Real.exp (-0 * 1)) :=
  ⟨by norm_num, boundary_at_zero_spot 1 1 0 1 0 (by norm_num) (by norm_num) (by norm_num)⟩

/-- C4: Non-negativity: for every valid input (`S ≥ 0`, `K > 0`, `T ≥ 0`,
`sigma ≥ 0`, `q ≥ 0`, any real `r`), both prices are nonnegative. -/
theorem prices_nonneg (S K T r sigma q : ℝ) (hS : 0 ≤ S) (hK : 0 < K) (hT : 0 ≤ T)
    (hsig : 0 ≤ sigma) (hq : 0 ≤ q) :
    0 ≤ bs_call_price S K T r sigma q ∧ 0 ≤ bs_put_price S K T r sigma q :=
  ⟨call_nonneg S K T r sigma q hS hK, put_nonneg S K T r sigma q hS hK⟩

theorem prices_nonneg_witness :
    (0 : ℝ) ≤ 1 ∧ (0 ≤ bs_call_price 1 1 1 0 1 0 ∧ 0 ≤ bs_put_price 1 1 1 0 1 0) :=
  ⟨by norm_num, prices_nonneg 1 1 1 0 1 0 (by norm_num) (by norm_num) (by norm_num)
    (by norm_num) (by norm_num)⟩

/-- C5: Monotonicity in the spot price: for fixed `K > 0`, `T`, `r`, `sigma`, `q`,
the call price is non-decreasing and the put price non-increasing on `S ≥ 0`. -/
theorem price_monotone_in_spot (K T r sigma q S1 S2 : ℝ) (hK : 0 < K)
    (hS1 : 0 ≤ S1) (hS12 : S1 ≤ S2) :
    bs_call_price S1 K T r sigma q ≤ bs_call_price S2 K T r sigma q ∧
    bs_put_price S2 K T r sigma q ≤ bs_put_price S1 K T r sigma q :=
  ⟨call_mono S1 S2 K T r sigma q hS1 hS12 hK, put_anti S1 S2 K T r sigma q hS1 hS12 hK⟩

theorem price_monotone_in_spot_witness :
    (0 : ℝ) ≤ 1 ∧ (1 : ℝ) ≤ 2 ∧
      (bs_call_price 1 1 1 0 1 0 ≤ bs_call_price 2 1 1 0 1 0 ∧
        bs_put_price 2 1 1 0 1 0 ≤ bs_put_price 1 1 1 0 1 0) :=
  ⟨by norm_num, by norm_num,
    price_monotone_in_spot 1 1 0 1 0 1 2 (by norm_num) (by norm_num) (by norm_num)⟩

/-- C6: Curve generation: for strike `K > 0` the spot sequence has exactly 200
points, starts at `0`, ends at `2*K`, has constant spacing `2*K/199`, is strictly
increasing, and the emitted call/put/intrinsic values at index `i` are the
pricing functions evaluated at the `i`-th spot. -/
theorem curve_generation (K T r sigma q : ℝ) (hK : 0 < K) :
    (S_vals K).length = 200 ∧
    (S_vals K).getD 0 0 = 0 ∧
    (S_vals K).getD 199 0 = 2 * K ∧
    (∀ i : ℕ, i + 1 < 200 →
      (S_vals K).getD (i + 1) 0 - (S_vals K).getD i 0 = 2 * K / 199) ∧
    (∀ i j : ℕ, i < j → j < 200 → (S_vals K).getD i 0 < (S_vals K).getD j 0) ∧
    (∀ i : ℕ, i < 200 →
      (call_vals K T r sigma q).getD i 0
          = bs_call_price ((S_vals K).getD i 0) K T r sigma q ∧
      (put_vals K T r sigma q).getD i 0
          = bs_put_price ((S_vals K).getD i 0) K T r sigma q ∧
      (intrinsic_call_vals K).getD i 0 = max ((S_vals K).getD i 0 - K) 0 ∧
      (intrinsic_put_vals K).getD i 0 = max (K - (S_vals K).getD i 0) 0) := by
  refine ⟨S_vals_length K, ?_, ?_, fun i hi => S_vals_spacing K i hi,
    fun i j hij hj => S_vals_strict K hK i j hij hj, fun i hi => ?_⟩
  · rw [S_vals_getD K 0 (by norm_num)]
    norm_num
  · rw [S_vals_getD K 199 (by norm_num)]
    push_cast
    rw [mul_div_assoc]
    norm_num
  · have hlen : i < (S_vals K).length := by rw [S_vals_length]; exact hi
    refine ⟨?_, ?_, ?_, ?_⟩
    · rw [call_vals, map_getD _ _ _ hlen]
    · rw [put_vals, map_getD _ _ _ hlen]
    · rw [intrinsic_call_vals, map_getD _ _ _ hlen, intrinsic_call]
    · rw [intrinsic_put_vals, map_getD _ _ _ hlen, intrinsic_put]

theorem curve_generation_witness :
    (0 : ℝ) < 100 ∧ (S_vals 100).length = 200 :=
  ⟨by norm_num, (curve_generation 100 1 0 1 0 (by norm_num)).1⟩

/-- C7: Totality: for every pre-clamped input (`K > 0`, `sigma ≥ 0`, `T ≥ 0`,
`S ≥ 0`, `q ≥ 0`, any real `r`) the prices are (total and) nonnegative real
values, and the divisor `sigma * sqrt T` of the non-degenerate branch is
nonzero there, so the only singular inputs (`sigma = 0` or `T = 0`) are
absorbed by the degenerate branch. -/
theorem prices_total (S K T r sigma q : ℝ) (hS : 0 ≤ S) (hK : 0 < K) (hT : 0 ≤ T)
    (hsig : 0 ≤ sigma) (hq : 0 ≤ q) :
    0 ≤ bs_call_price S K T r sigma q ∧ 0 ≤ bs_put_price S K T r sigma q ∧
      (¬(sigma ≤ 0 ∨ T ≤ 0) → sigma * Real.sqrt T ≠ 0) := by
  refine ⟨call_nonneg S K T r sigma q hS hK, put_nonneg S K T r sigma q hS hK, fun h => ?_⟩
  push_neg at h
  exact (mul_pos h.1 (Real.sqrt_pos.2 h.2)).ne'

theorem prices_total_witness :
    (0 : ℝ) ≤ 1 ∧
      (0 ≤ bs_call_price 1 1 1 0 1 0 ∧ 0 ≤ bs_put_price 1 1 1 0 1 0 ∧
        (¬((1 : ℝ) ≤ 0 ∨ (1 : ℝ) ≤ 0) → (1 : ℝ) * Real.sqrt 1 ≠ 0)) :=
  ⟨by norm_num, prices_total 1 1 1 0 1 0 (by norm_num) (by norm_num) (by norm_num)
    (by norm_num) (by norm_num)⟩

/-- C8: Determinism / restartability: the curve generation is a pure function of
its five parameters - two runs with identical `(K, T, r, sigma, q)` produce
identical spot, call, put and intrinsic sequences. -/
theorem curve_deterministic (K T r sigma q K2 T2 r2 sigma2 q2 : ℝ)
    (hK : K = K2) (hT : T = T2) (hr : r = r2) (hsig : sigma = sigma2) (hq : q = q2) :
    S_vals K = S_vals K2 ∧
    call_vals K T r sigma q = call_vals K2 T2 r2 sigma2 q2 ∧
    put_vals K T r sigma q = put_vals K2 T2 r2 sigma2 q2 ∧
    intrinsic_call_vals K = intrinsic_call_vals K2 ∧
    intrinsic_put_vals K = intrinsic_put_vals K2 := by
  subst hK
  subst hT
  subst hr
  subst hsig
  subst hq
  exact ⟨rfl, rfl, rfl, rfl, rfl⟩

theorem curve_deterministic_witness :
    (100 : ℝ) = 100 ∧ call_vals 100 1 0 1 0 = call_vals 100 1 0 1 0 :=
  ⟨rfl, (curve_deterministic 100 1 0 1 0 100 1 0 1 0 rfl rfl rfl rfl rfl).2.1⟩

/-- C9: Put-call parity also holds in the degenerate branch: for `K > 0`,
`S ≥ 0` and `sigma ≤ 0` or `T ≤ 0`, `call - put = S*e^(-q*T) - K*e^(-r*T)`,
since `max(0, F) - max(0, -F) = F`. -/
theorem degenerate_parity (S K T r sigma q : ℝ) (hK : 0 < K) (hS : 0 ≤ S)
    (h : sigma ≤ 0 ∨ T ≤ 0) :
    bs_call_price S K T r sigma q - bs_put_price S K T r sigma q
      = S * Real.exp (-q * T) - K * Real.exp (-r * T) := by
  rw [bs_call_price, if_pos h, bs_put_price, if_pos h,
    show Real.exp (-r * T) * K - Real.exp (-q * T) * S
        = -(Real.exp (-q * T) * S - Real.exp (-r * T) * K) from by ring]
  rcases le_total (Real.exp (-q * T) * S - Real.exp (-r * T) * K) 0 with hc | hc
  · rw [max_eq_left hc, max_eq_right (neg_nonneg.2 hc)]
    ring
  · rw [max_eq_right hc, max_eq_left (neg_nonpos.2 hc)]
    ring

theorem degenerate_parity_witness :
    (0 : ℝ) < 1 ∧ (0 : ℝ) ≤ 2 ∧
      bs_call_price 2 1 1 0 0 0 - bs_put_price 2 1 1 0 0 0
        = 2 * Real.exp (-0 * 1) - 1 * Real.exp (-0 * 1) :=
  ⟨by norm_num, by norm_num,
    degenerate_parity 2 1 1 0 0 0 (by norm_num) (by norm_num) (Or.inl le_rfl)⟩

/-- C10: Upper bounds: for every valid input (`S ≥ 0`, `K > 0`, `T ≥ 0`,
`sigma ≥ 0`, `q ≥ 0`, any real `r`), the call is at most the discounted spot
`S*e^(-q*T)` and the put at most the discounted strike `K*e^(-r*T)`. -/
theorem price_upper_bounds (S K T r sigma q : ℝ) (hS : 0 ≤ S) (hK : 0 < K) (hT : 0 ≤ T)
    (hsig : 0 ≤ sigma) (hq : 0 ≤ q) :
    bs_call_price S K T r sigma q ≤ S * Real.exp (-q * T) ∧
    bs_put_price S K T r sigma q ≤ K * Real.exp (-r * T) :=
  ⟨call_le S K T r sigma q hS hK, put_le S K T r sigma q hS hK⟩

theorem price_upper_bounds_witness :
    (0 : ℝ) ≤ 1 ∧
      (bs_call_price 1 1 1 0 1 0 ≤ 1 * Real.exp (-0 * 1) ∧
        bs_put_price 1 1 1 0 1 0 ≤ 1 * Real.exp (-0 * 1)) :=
  ⟨by norm_num, price_upper_bounds 1 1 1 0 1 0 (by norm_num) (by norm_num) (by norm_num)
    (by norm_num) (by norm_num)⟩

end BS

end
